import Mathlib

/-!
Verification development for the bills-handling repository.

The repository's engine (app.py, update_categories.py) is shallowly embedded:
pure Python functions become Lean functions over `List Char` / `String` / `ℚ`,
the sqlite-backed category and expense tables become association lists, and the
two external libraries the engine calls into (fuzzywuzzy's similarity scorer
and pandas' permissive date parser) are passed in as function parameters.
-/

/-! ## Character and string primitives (Python `str` helpers) -/

/-- Python whitespace class used by `str.strip`, `str.split` and the regex
class `\s` (ASCII range). -/
def isPySpace (c : Char) : Bool :=
  c == ' ' || c == '\t' || c == '\n' || c == '\r' || c == '\x0b' || c == '\x0c'

/-- Python `str.strip()` on a character list. -/
def trimChars (l : List Char) : List Char :=
  ((l.dropWhile isPySpace).reverse.dropWhile isPySpace).reverse

/-- Python `str.lower()` on a character list (ASCII inputs). -/
def lowerChars (l : List Char) : List Char :=
  l.map Char.toLower

/-- Does `needle` occur at the head of `hay`? -/
def leadsWith : List Char → List Char → Bool
  | [], _ => true
  | _ :: _, [] => false
  | a :: as, b :: bs => a == b && leadsWith as bs

/-- Python substring containment `needle in hay` on character lists. -/
def containsSub : List Char → List Char → Bool
  | hay, needle =>
    leadsWith needle hay ||
      match hay with
      | [] => false
      | _ :: t => containsSub t needle

/-- Python `str.strip()` on `String`. -/
def pyStrip (s : String) : String := String.mk (trimChars s.data)

/-- Python `str.lower()` on `String`. -/
def pyLower (s : String) : String := String.mk (lowerChars s.data)

/-! ## AmountExtractor (`extract_amount`, app.py lines 351-374) -/

/-- Numeric value of a run of decimal digit characters. -/
def digitsToNat (ds : List Char) : Nat :=
  ds.foldl (fun n c => 10 * n + (c.toNat - 48)) 0

/-- The capture group of `[Ss]\$(\d+(?:\.\d{2})?)` after the `$` sign:
a maximal digit run, optionally extended by a dot and exactly two digits. -/
def matchAfterDollar (rest : List Char) : Option (List Char) :=
  let ds := rest.takeWhile Char.isDigit
  if ds = [] then none
  else
    match rest.dropWhile Char.isDigit with
    | '.' :: a :: b :: _ =>
        if a.isDigit ∧ b.isDigit then some (ds ++ ['.', a, b]) else some ds
    | _ => some ds

/-- Attempt the regex `[Ss]\$(\d+(?:\.\d{2})?)` at the start of the list,
returning the capture group on success. -/
def matchAmount : List Char → Option (List Char)
  | c1 :: '$' :: rest => if c1 = 'S' ∨ c1 = 's' then matchAfterDollar rest else none
  | _ => none

/-- `re.search` for the amount pattern: the leftmost position where the
pattern matches, returning its capture group. -/
def searchAmount : List Char → Option (List Char)
  | [] => none
  | c :: rest =>
    match matchAmount (c :: rest) with
    | some g => some g
    | none => searchAmount rest

/-- Python `float(...)` on the capture group (digits, optionally a dot and two
digits), in integer cents: every amount the extractor produces has the exact
value `cents / 100`. -/
def parseCents (g : List Char) : ℕ :=
  let intPart := g.takeWhile Char.isDigit
  match g.dropWhile Char.isDigit with
  | '.' :: frac => digitsToNat intPart * 100 + digitsToNat frac
  | _ => digitsToNat intPart * 100

/-- `extract_amount` (app.py) in integer cents: strip the text, reject empty
or `n/a` rows with `0`, find the first `S$` amount, and negate it when the
lowercased text contains the substring `cr`. -/
def extractCents (text : String) : ℤ :=
  let original := trimChars text.data
  let lowered := lowerChars original
  if lowered.isEmpty || containsSub lowered ['n', '/', 'a'] then 0
  else
    match searchAmount original with
    | some g =>
        if containsSub lowered ['c', 'r'] then -(parseCents g : ℤ) else (parseCents g : ℤ)
    | none => 0

/-- `extract_amount` (app.py lines 351-374) as an exact rational. -/
def extract_amount (text : String) : ℚ := (extractCents text : ℚ) / 100

/-! ## Categorizer (`categorize_expense`, app.py lines 408-467)

The fuzzywuzzy similarity engine is abstracted as a scoring function
`score : String → String → ℕ`; `process.extractOne(word, keywords)` returns
the keyword of maximal score, of which the code only uses the score. -/

/-- Match the regex `\s+-\s+` at the head of the list; on success return the
remainder after the match. -/
def matchSpHySp (l : List Char) : Option (List Char) :=
  let sp1 := l.takeWhile isPySpace
  if sp1 = [] then none
  else
    match l.dropWhile isPySpace with
    | '-' :: r2 =>
      match r2.takeWhile isPySpace with
      | [] => none
      | _ :: _ => some (r2.dropWhile isPySpace)
    | _ => none

/-- `re.sub(r'\s+-\s+', ' ', s)`: replace each non-overlapping match by one
space, scanning left to right.  Each replacement consumes at least three
characters, so the list length is enough fuel. -/
def subSpHySp : Nat → List Char → List Char
  | 0, l => l
  | _ + 1, [] => []
  | fuel + 1, c :: rest =>
    match matchSpHySp (c :: rest) with
    | some r => ' ' :: subSpHySp fuel r
    | none => c :: subSpHySp fuel rest

/-- `re.sub(r'[^a-z0-9\s\-]', ' ', s)` (the text is already lowercased). -/
def cleanChars (l : List Char) : List Char :=
  l.map (fun c =>
    if ('a' ≤ c ∧ c ≤ 'z') ∨ ('0' ≤ c ∧ c ≤ '9') ∨ isPySpace c ∨ c = '-' then c else ' ')

/-- Split into maximal runs of characters not satisfying `p`, discarding
separators and empty pieces (Python `str.split` / filtered `re.split`). -/
def chunksBy (p : Char → Bool) : List Char → List Char → List (List Char)
  | [], acc => if acc = [] then [] else [acc.reverse]
  | c :: rest, acc =>
    if p c then
      if acc = [] then chunksBy p rest [] else acc.reverse :: chunksBy p rest []
    else chunksBy p rest (c :: acc)

/-- `' '.join(word.strip() for word in s.split())`: whitespace normalization. -/
def normalizeWs (l : List Char) : List Char :=
  match chunksBy isPySpace l [] with
  | [] => []
  | w :: ws => ws.foldl (fun acc w2 => acc ++ ' ' :: w2) w

/-- The cleaned and normalized expense name (app.py lines 414-422). -/
def norm_expense_name (name : String) : List Char :=
  let l := lowerChars name.data
  let l := subSpHySp l.length l
  let l := cleanChars l
  normalizeWs l

/-- `[w for w in re.split(r'[\s-]+', expense_name) if w]`. -/
def splitTokens (l : List Char) : List String :=
  (chunksBy (fun c => isPySpace c || c == '-') l []).map String.mk

/-- `process.extractOne(word, keywords)`: the best similarity score any
keyword of the list reaches against the word. -/
def maxKwScore (score : String → String → ℕ) (word : String) (kws : List String) : ℕ :=
  (kws.map (score word)).foldl Nat.max 0

/-- The category loop body of the fuzzy branch: skip categories with empty
keyword lists; adopt a category when its best keyword score strictly exceeds
both the running best score and the 75 threshold. -/
def fuzzyInner (score : String → String → ℕ) (w : String) (acc2 : String × ℕ)
    (ck : String × List String) : String × ℕ :=
  if ck.2 = [] then acc2
  else if acc2.2 < maxKwScore score w ck.2 ∧ 75 < maxKwScore score w ck.2 then
    (ck.1, maxKwScore score w ck.2)
  else acc2

/-- The word loop body of the fuzzy branch: skip empty words, otherwise run
the category loop. -/
def fuzzyOuter (score : String → String → ℕ) (cats : List (String × List String))
    (acc : String × ℕ) (w : String) : String × ℕ :=
  if w = "" then acc else cats.foldl (fuzzyInner score w) acc

/-- `categorize_expense` (app.py, fuzzy branch): for every token and every
category with a non-empty keyword list, take the best keyword score; adopt
the category when the score strictly exceeds both the running best score and
the 75 threshold.  A missing (NaN) description or an empty cleaned name falls
back to ("others", 0).  `cats` is the `get_all_categories()` snapshot in
iteration order. -/
def categorize_expense (score : String → String → ℕ)
    (cats : List (String × List String)) (name : Option String) : String × ℕ :=
  match name with
  | none => ("others", 0)
  | some n =>
    let cleaned := norm_expense_name n
    if cleaned = [] then ("others", 0)
    else (splitTokens cleaned).foldl (fuzzyOuter score cats) ("others", 0)

/-- `categorize_expense` (app.py, degraded branch used when fuzzywuzzy is
unavailable): first category whose stripped, lowercased keyword is a literal
substring of the normalized name wins outright with score 100. -/
def scanKeywords (ename : List Char) (cat : String) : List String → Option (String × ℕ)
  | [] => none
  | kw :: kws =>
    if kw ≠ "" ∧ trimChars kw.data ≠ [] ∧
        containsSub ename (lowerChars (trimChars kw.data)) then
      some (cat, 100)
    else scanKeywords ename cat kws

/-- The category scan of the degraded branch. -/
def fallbackScan (ename : List Char) : List (String × List String) → String × ℕ
  | [] => ("others", 0)
  | ck :: rest =>
    if ck.2 = [] then fallbackScan ename rest
    else
      match scanKeywords ename ck.1 ck.2 with
      | some r => r
      | none => fallbackScan ename rest

/-- Degraded-mode `categorize_expense` (app.py lines 452-467). -/
def categorize_fallback (cats : List (String × List String)) (name : Option String) :
    String × ℕ :=
  match name with
  | none => ("others", 0)
  | some n =>
    let cleaned := norm_expense_name n
    if cleaned = [] then ("others", 0)
    else fallbackScan cleaned cats

/-! ### Spec-side characterization of the fuzzy matcher (claim C1)

These definitions follow the spec's words: collect the (token, category)
pair scores in iteration order, take the single highest, apply the strict
threshold of 75, and break ties toward the earlier pair. -/

/-- The update step of the best-match loop: a candidate replaces the current
best only if its score strictly exceeds both the best score and 75. -/
def stepBest (acc p : String × ℕ) : String × ℕ :=
  if acc.2 < p.2 ∧ 75 < p.2 then p else acc

/-- The (category, best-keyword-score) entries of one token, restricted to
categories with non-empty keyword lists, in category iteration order. -/
def entriesFor (score : String → String → ℕ) (cats : List (String × List String))
    (w : String) : List (String × ℕ) :=
  if w = "" then []
  else cats.filterMap (fun ck =>
    if ck.2 = [] then none else some (ck.1, maxKwScore score w ck.2))

/-- All (category, score) entries, token-major then category-minor. -/
def pairEntries (score : String → String → ℕ) (cats : List (String × List String))
    (words : List String) : List (String × ℕ) :=
  words.flatMap (entriesFor score cats)

/-- The single highest score among the entries (0 when there are none). -/
def maxScore : List (String × ℕ) → ℕ
  | [] => 0
  | p :: l => Nat.max p.2 (maxScore l)

/-- The category of the earliest entry achieving score `m`. -/
def firstBestCat (l : List (String × ℕ)) (m : ℕ) : String :=
  match l.find? (fun p => p.2 == m) with
  | some p => p.1
  | none => "others"

/-- The Categorizer as the spec states it: the category achieving the single
highest (token, keyword) similarity score, earliest pair winning ties,
("others", 0) unless that score strictly exceeds 75. -/
def categorize_spec (score : String → String → ℕ)
    (cats : List (String × List String)) (name : Option String) : String × ℕ :=
  match name with
  | none => ("others", 0)
  | some n =>
    let entries := pairEntries score cats (splitTokens (norm_expense_name n))
    let m := maxScore entries
    if 75 < m then (firstBestCat entries m, m) else ("others", 0)

/-! ## CategoryStore (app.py lines 129-216 and 475-531)

The sqlite `categories` table is an association list of
(name, comma-joined keywords text) rows in row order; `INSERT OR REPLACE`
deletes the old row and appends the new one. -/

/-- Python `s.split(',')` on a character list: split at every comma, keeping
empty pieces. -/
def splitCommaGo : List Char → List Char → List String
  | [], acc => [String.mk acc.reverse]
  | c :: rest, acc =>
    if c = ',' then String.mk acc.reverse :: splitCommaGo rest []
    else splitCommaGo rest (c :: acc)

/-- Python `s.split(',')`. -/
def pySplitComma (s : String) : List String := splitCommaGo s.data []

/-- `','.join(keywords)`. -/
def joinComma : List String → String
  | [] => ""
  | [k] => k
  | k :: ks => k ++ "," ++ joinComma ks

/-- `SELECT` row order after `INSERT OR REPLACE`: the replaced row is
removed and the new row appended. -/
def insertOrReplace (db : List (String × String)) (name kwstr : String) :
    List (String × String) :=
  db.filter (fun r => r.1 != name) ++ [(name, kwstr)]

/-- `get_all_categories` (app.py lines 129-146): split each keywords text on
commas, empty text giving the empty list. -/
def get_all_categories (db : List (String × String)) : List (String × List String) :=
  db.map (fun r => (r.1, if r.2 = "" then [] else pySplitComma r.2))

/-- `update_category` (app.py lines 148-167): lowercase the name and replace
the keyword list wholesale. -/
def update_category (db : List (String × String)) (name : String)
    (keywords : List String) : List (String × String) :=
  insertOrReplace db (pyLower name) (joinComma keywords)

/-- `delete_category` (app.py lines 169-183). -/
def delete_category (db : List (String × String)) (name : String) :
    List (String × String) :=
  db.filter (fun r => r.1 != pyLower name)

/-- `import_categories` (app.py lines 196-216): insert-or-replace every entry
of the parsed JSON object. -/
def import_categories (db : List (String × String))
    (entries : List (String × List String)) : List (String × String) :=
  entries.foldl (fun d e => insertOrReplace d (pyLower e.1) (joinComma e.2)) db

/-- `[k.strip().lower() for k in keywords_str.split(',') if k.strip()]`. -/
def tokensOf (s : String) : List String :=
  (pySplitComma s).filterMap (fun k =>
    if pyStrip k = "" then none else some (pyLower (pyStrip k)))

/-- The keyword loop of `update_categories_with_unique_keywords`: keep the
tokens not yet claimed (skipping duplicates), threading the claim map
(represented by its key list) through; returns (kept tokens, updated claim
map). -/
def claimKeep (claimed : List String) : List String → List String × List String
  | [] => ([], claimed)
  | t :: ts =>
    if t ∈ claimed then claimKeep claimed ts
    else
      let r := claimKeep (t :: claimed) ts
      (t :: r.1, r.2)

/-- Phase one of `update_categories_with_unique_keywords` (app.py lines
494-507): process the edited categories in order, building per-category
post-deduplication keyword lists. -/
def processCategoriesGo : List (String × String) → List String →
    List (String × List String)
  | [], _ => []
  | e :: rest, claimed =>
    let r := claimKeep claimed (tokensOf e.2)
    (e.1, r.1) :: processCategoriesGo rest r.2

/-- Phase one with an empty initial claim map. -/
def processCategories (edited : List (String × String)) : List (String × List String) :=
  processCategoriesGo edited []

/-- `update_categories_with_unique_keywords` (app.py lines 491-531): persist
the post-deduplication lists with `INSERT OR REPLACE`, lowercasing names. -/
def update_categories_with_unique_keywords (db : List (String × String))
    (edited : List (String × String)) : List (String × String) :=
  (processCategories edited).foldl
    (fun d ck => insertOrReplace d (pyLower ck.1) (joinComma ck.2)) db

/-- The mutating operations of the CategoryStore. -/
inductive StoreOp where
  | upsert (name : String) (keywords : List String)
  | del (name : String)
  | bulk (edited : List (String × String))
  | imp (entries : List (String × List String))

/-- Apply one store mutation. -/
def applyOp (db : List (String × String)) : StoreOp → List (String × String)
  | StoreOp.upsert n kws => update_category db n kws
  | StoreOp.del n => delete_category db n
  | StoreOp.bulk e => update_categories_with_unique_keywords db e
  | StoreOp.imp es => import_categories db es

/-- Apply a sequence of store mutations. -/
def applyOps (ops : List StoreOp) (db : List (String × String)) :
    List (String × String) :=
  ops.foldl applyOp db

/-- The claimed invariant: the union of all categories' keyword lists
contains no duplicate token. -/
abbrev keywordsUnique (db : List (String × String)) : Prop :=
  ((get_all_categories db).flatMap Prod.snd).Nodup

/-! ## DateNormalizer (`parse_date`, app.py lines 39-51)

`strptime` is modelled per format: `%d` and `%m` match one or two digits,
`%b` a case-insensitive three-letter month abbreviation, `%Y` exactly four
digits; whitespace in the format matches a run of whitespace; the whole
string must be consumed and the calendar date must be valid.  The pandas
`to_datetime` fallback is an external library and is passed in as a
parameter. -/

/-- `\d{1,2}` (greedy), returning the value and the rest. -/
def take2Digits : List Char → Option (ℕ × List Char)
  | [] => none
  | a :: rest =>
    if a.isDigit then
      match rest with
      | b :: rest2 =>
        if b.isDigit then some ((a.toNat - 48) * 10 + (b.toNat - 48), rest2)
        else some (a.toNat - 48, rest)
      | [] => some (a.toNat - 48, [])
    else none

/-- `\d\d\d\d` (the regex `strptime` uses for `%Y`). -/
def take4Digits : List Char → Option (ℕ × List Char)
  | a :: b :: c :: d :: rest =>
    if a.isDigit ∧ b.isDigit ∧ c.isDigit ∧ d.isDigit then
      some (((a.toNat - 48) * 10 + (b.toNat - 48)) * 100 +
        ((c.toNat - 48) * 10 + (d.toNat - 48)), rest)
    else none
  | _ => none

/-- `\s+`: at least one whitespace character. -/
def skipSpaces1 : List Char → Option (List Char)
  | c :: rest => if isPySpace c then some (rest.dropWhile isPySpace) else none
  | [] => none

/-- The `%b` month abbreviations, lowercased. -/
def monthOfAbbrev (s : List Char) : Option ℕ :=
  if s = ['j', 'a', 'n'] then some 1 else if s = ['f', 'e', 'b'] then some 2
  else if s = ['m', 'a', 'r'] then some 3 else if s = ['a', 'p', 'r'] then some 4
  else if s = ['m', 'a', 'y'] then some 5 else if s = ['j', 'u', 'n'] then some 6
  else if s = ['j', 'u', 'l'] then some 7 else if s = ['a', 'u', 'g'] then some 8
  else if s = ['s', 'e', 'p'] then some 9 else if s = ['o', 'c', 't'] then some 10
  else if s = ['n', 'o', 'v'] then some 11 else if s = ['d', 'e', 'c'] then some 12
  else none

/-- `%b`: a case-insensitive three-letter month abbreviation. -/
def takeMonth : List Char → Option (ℕ × List Char)
  | a :: b :: c :: rest =>
    match monthOfAbbrev (lowerChars [a, b, c]) with
    | some m => some (m, rest)
    | none => none
  | _ => none

/-- Leap years (`datetime` validity). -/
def isLeap (y : ℕ) : Bool := (y % 4 = 0 ∧ y % 100 ≠ 0) ∨ y % 400 = 0

/-- Days in a month. -/
def daysInMonth (y m : ℕ) : ℕ :=
  if m = 2 then (if isLeap y then 29 else 28)
  else if m = 4 ∨ m = 6 ∨ m = 9 ∨ m = 11 then 30
  else 31

/-- `datetime(year, month, day)` validity. -/
def validDate (y m d : ℕ) : Bool :=
  1 ≤ y ∧ 1 ≤ m ∧ m ≤ 12 ∧ 1 ≤ d ∧ d ≤ daysInMonth y m

/-- `strptime(s, '%d %b %Y')`. -/
def parseFmtDayMonYear (l : List Char) : Option (ℕ × ℕ × ℕ) :=
  match take2Digits l with
  | none => none
  | some (d, r1) =>
    match skipSpaces1 r1 with
    | none => none
    | some r2 =>
      match takeMonth r2 with
      | none => none
      | some (m, r3) =>
        match skipSpaces1 r3 with
        | none => none
        | some r4 =>
          match take4Digits r4 with
          | none => none
          | some (y, r5) =>
            if r5 = [] ∧ validDate y m d then some (y, m, d) else none

/-- `strptime(s, '%d%b%Y')`. -/
def parseFmtCompact (l : List Char) : Option (ℕ × ℕ × ℕ) :=
  match take2Digits l with
  | none => none
  | some (d, r1) =>
    match takeMonth r1 with
    | none => none
    | some (m, r2) =>
      match take4Digits r2 with
      | none => none
      | some (y, r3) =>
        if r3 = [] ∧ validDate y m d then some (y, m, d) else none

/-- `strptime(s, '%Y-%m-%d')`. -/
def parseFmtIso (l : List Char) : Option (ℕ × ℕ × ℕ) :=
  match take4Digits l with
  | none => none
  | some (y, r1) =>
    match r1 with
    | '-' :: r2 =>
      match take2Digits r2 with
      | none => none
      | some (m, r3) =>
        match r3 with
        | '-' :: r4 =>
          match take2Digits r4 with
          | none => none
          | some (d, r5) =>
            if r5 = [] ∧ validDate y m d then some (y, m, d) else none
        | _ => none
    | _ => none

/-- Zero-padded two-digit field of `strftime('%Y-%m-%d')`. -/
def pad2 (n : ℕ) : String := if n < 10 then "0" ++ toString n else toString n

/-- Zero-padded four-digit year of `strftime('%Y-%m-%d')`. -/
def pad4 (n : ℕ) : String :=
  if n < 10 then "000" ++ toString n
  else if n < 100 then "00" ++ toString n
  else if n < 1000 then "0" ++ toString n
  else toString n

/-- `strftime('%Y-%m-%d')`. -/
def fmtYmd (ymd : ℕ × ℕ × ℕ) : String :=
  pad4 ymd.1 ++ "-" ++ pad2 ymd.2.1 ++ "-" ++ pad2 ymd.2.2

/-- `parse_date` (app.py lines 39-51): try the three explicit formats on the
stripped string, then hand the original string to the pandas fallback
(`pandasParse`), and return `none` (Python `None`) when everything fails. -/
def parse_date (pandasParse : String → Option (ℕ × ℕ × ℕ)) (s : String) :
    Option String :=
  let t := trimChars s.data
  match parseFmtDayMonYear t with
  | some ymd => some (fmtYmd ymd)
  | none =>
    match parseFmtCompact t with
    | some ymd => some (fmtYmd ymd)
    | none =>
      match parseFmtIso t with
      | some ymd => some (fmtYmd ymd)
      | none =>
        match pandasParse s with
        | some ymd => some (fmtYmd ymd)
        | none => none

/-! ## Expense persistence (`save_expenses`, app.py lines 257-291) -/

/-- One row of the bulk-import DataFrame handed to `save_expenses`. -/
structure Row where
  date : String
  bills : String
  amount : ℚ
  category : String
  selfPercentage : ℚ
  selfAmount : ℚ
  wifeAmount : ℚ
  text : String
  billMonth : String
deriving DecidableEq

/-- One row of the `expenses` table as written by `save_expenses` (the
autoincrement id and timestamp are managed by sqlite and omitted). -/
structure ExpenseRow where
  date : String
  description : String
  amount : ℚ
  category : String
  self_percentage : ℚ
  self_amount : ℚ
  wife_amount : ℚ
  original_text : String
  credit_card_bill_month : String
deriving DecidableEq

/-- The `INSERT` tuple of `save_expenses` for one row and its parsed date. -/
def rowToExpense (billMonth : String) (r : Row) (d : String) : ExpenseRow :=
  ⟨d, r.bills, r.amount, r.category, r.selfPercentage, r.selfAmount,
    r.wifeAmount, r.text, billMonth⟩

/-- The date-validation loop of `save_expenses`: parse every row's date,
failing on the first row whose date does not parse. -/
def collectDates (pandasParse : String → Option (ℕ × ℕ × ℕ)) :
    List Row → Option (List String)
  | [] => some []
  | r :: rs =>
    match parse_date pandasParse r.date with
    | none => none
    | some d =>
      match collectDates pandasParse rs with
      | none => none
      | some ds => some (d :: ds)

/-- `save_expenses` (app.py lines 257-291): validate every date up front and
return failure (persisting nothing) when any fails; otherwise insert every
row, all stamped with the first row's bill month.  An empty frame fails on
the `iloc[0]` access. -/
def save_expenses (pandasParse : String → Option (ℕ × ℕ × ℕ))
    (db : List ExpenseRow) (rows : List Row) : Option (List ExpenseRow) :=
  match rows with
  | [] => none
  | r0 :: _ =>
    match collectDates pandasParse rows with
    | none => none
    | some dates =>
      some (db ++ (rows.zip dates).map (fun p => rowToExpense r0.billMonth p.1 p.2))

/-! ## BulkRecategorizer (`update_existing_expenses_categories`, app.py
lines 533-582)

The model carries the columns the operation touches: the fetched snapshot is
`SELECT id, description, category` and the rewrite is
`UPDATE expenses SET category = ? WHERE id = ?`, whose `rowcount` is the
number of rows with the given id. -/

/-- An `expenses` row as seen by the bulk recategorizer. -/
structure Expense where
  id : ℕ
  description : String
  amount : ℚ
  category : String
deriving DecidableEq

/-- One iteration of the bulk recategorizer's loop over the snapshot, acting
on (table, total_updates, updated_expenses): skip empty descriptions, skip
unchanged categories, otherwise rewrite by id and log
(id, description, new category) when `rowcount` is positive. -/
def recatStep (score : String → String → ℕ) (cats : List (String × List String))
    (st : List Expense × ℕ × List (ℕ × String × String))
    (entry : ℕ × String × String) : List Expense × ℕ × List (ℕ × String × String) :=
  if entry.2.1 = "" then st
  else if (categorize_expense score cats (some entry.2.1)).1 = entry.2.2 then st
  else
    let nc := (categorize_expense score cats (some entry.2.1)).1
    let db2 := st.1.map (fun e => if e.id = entry.1 then { e with category := nc } else e)
    if 0 < st.1.countP (fun e => e.id == entry.1) then
      (db2, st.2.1 + 1, st.2.2 ++ [(entry.1, entry.2.1, nc)])
    else (db2, st.2.1, st.2.2)

/-- `update_existing_expenses_categories` (app.py lines 533-582): snapshot
the table, fold the loop, and return (new table, total_processed,
total_updated, updated_expenses). -/
def update_existing_expenses_categories (score : String → String → ℕ)
    (cats : List (String × List String)) (db : List Expense) :
    List Expense × ℕ × ℕ × List (ℕ × String × String) :=
  let snapshot := db.map (fun e => (e.id, e.description, e.category))
  let r := snapshot.foldl (recatStep score cats) (db, 0, [])
  (r.1, db.length, r.2.1, r.2.2)

/-! ### Spec-side characterization of the bulk recategorizer (C6, C7) -/

/-- The category the Categorizer assigns to a record's description. -/
def newCatOf (score : String → String → ℕ) (cats : List (String × List String))
    (e : Expense) : String :=
  (categorize_expense score cats (some e.description)).1

/-- A record is rewritten when its description is non-empty and the
recomputed category differs from the stored one. -/
def changedB (score : String → String → ℕ) (cats : List (String × List String))
    (e : Expense) : Bool :=
  (e.description != "") && (newCatOf score cats e != e.category)

/-- The per-record effect of one bulk recategorization run. -/
def applyRecat (score : String → String → ℕ) (cats : List (String × List String))
    (e : Expense) : Expense :=
  if changedB score cats e then { e with category := newCatOf score cats e } else e

/-- The snapshot category of one entry, recomputed. -/
def recatNew (score : String → String → ℕ) (cats : List (String × List String))
    (entry : ℕ × String × String) : String :=
  (categorize_expense score cats (some entry.2.1)).1

/-- Whether a snapshot entry produces a counted, logged update against
table `T`. -/
def recatGood (score : String → String → ℕ) (cats : List (String × List String))
    (T : List Expense) (entry : ℕ × String × String) : Bool :=
  (entry.2.1 != "") && (recatNew score cats entry != entry.2.2) &&
    decide (0 < T.countP (fun e => e.id == entry.1))

/-- The table rewrite performed for one snapshot entry. -/
def recatUpd (score : String → String → ℕ) (cats : List (String × List String))
    (T : List Expense) (entry : ℕ × String × String) : List Expense :=
  if entry.2.1 = "" then T
  else if recatNew score cats entry = entry.2.2 then T
  else T.map (fun e =>
    if e.id = entry.1 then { e with category := recatNew score cats entry } else e)

/-- The effect of one snapshot entry on one record. -/
def recatPer (score : String → String → ℕ) (cats : List (String × List String))
    (entry : ℕ × String × String) (x : Expense) : Expense :=
  if entry.2.1 = "" then x
  else if recatNew score cats entry = entry.2.2 then x
  else if x.id = entry.1 then { x with category := recatNew score cats entry } else x

/-- The accumulated effect of a snapshot prefix on one record. -/
def applyEntries (score : String → String → ℕ) (cats : List (String × List String))
    (S : List (ℕ × String × String)) (x : Expense) : Expense :=
  S.foldl (fun x entry => recatPer score cats entry x) x

/-- An exact-equality scorer, used to instantiate the abstract similarity
engine in concrete witnesses. -/
def eqScore (a b : String) : ℕ := if a = b then 100 else 0

/-! ## Helper lemmas for the amount extractor -/

theorem extract_amount_eq_cents (s : String) (n : ℤ) (h : extractCents s = n) :
    extract_amount s = (n : ℚ) / 100 := by
  simp only [extract_amount, h]

theorem takeWhile_digit_break (ds fs : List Char) (h : ∀ c ∈ ds, c.isDigit = true) :
    (ds ++ '.' :: fs).takeWhile Char.isDigit = ds ∧
    (ds ++ '.' :: fs).dropWhile Char.isDigit = '.' :: fs := by
  induction ds with
  | nil => exact ⟨by simp [List.takeWhile_cons], by simp [List.dropWhile_cons]⟩
  | cons d ds ih =>
    have hd : d.isDigit = true := h d (List.mem_cons_self _ _)
    have hrest : ∀ c ∈ ds, c.isDigit = true := fun c hc => h c (List.mem_cons_of_mem _ hc)
    refine ⟨?_, ?_⟩
    · simp [List.takeWhile_cons, hd, (ih hrest).1]
    · simp [List.dropWhile_cons, hd, (ih hrest).2]

/-- C4: the AmountExtractor returns exactly the spec's literal results on the
seven quoted inputs. -/
theorem c4_amount_extractor_literal_cases :
    extract_amount "S$25.90" = 25.90 ∧ extract_amount "s$25.90" = 25.90 ∧
    extract_amount "S$25.90 cr" = -25.90 ∧ extract_amount "S$25.90CR" = -25.90 ∧
    extract_amount "S$100" = 100 ∧ extract_amount "MSIA CUISINE PTE LTD N/A SG" = 0 ∧
    extract_amount "Credit S$75.50 cr" = -75.50 := by
  refine ⟨?_, ?_, ?_, ?_, ?_, ?_, ?_⟩
  · rw [extract_amount_eq_cents _ 2590 (by decide)]; norm_num
  · rw [extract_amount_eq_cents _ 2590 (by decide)]; norm_num
  · rw [extract_amount_eq_cents _ (-2590) (by decide)]; norm_num
  · rw [extract_amount_eq_cents _ (-2590) (by decide)]; norm_num
  · rw [extract_amount_eq_cents _ 10000 (by decide)]; norm_num
  · rw [extract_amount_eq_cents _ 0 (by decide)]; norm_num
  · rw [extract_amount_eq_cents _ (-7550) (by decide)]; norm_num

/-- C10: when the digits after the currency marker carry a fractional part
that is not exactly two digits long, the regex captures only the maximal
prefix of the form digits-optionally-dot-two-digits, silently dropping the
leftover fractional digits; on the literal inputs this yields
extract_amount "S$25.9" = 25.00 and extract_amount "S$25.999" = 25.99. -/
theorem c10_fractional_capture :
    (∀ ds fs : List Char, ds ≠ [] → (∀ c ∈ ds, c.isDigit = true) →
      (∀ c ∈ fs, c.isDigit = true) → fs.length ≠ 2 →
      ((fs.length < 2 → matchAmount ('S' :: '$' :: (ds ++ '.' :: fs)) = some ds) ∧
       (2 ≤ fs.length →
         matchAmount ('S' :: '$' :: (ds ++ '.' :: fs)) = some (ds ++ '.' :: fs.take 2)))) ∧
    extract_amount "S$25.9" = 25 ∧ extract_amount "S$25.999" = 25.99 := by
  refine ⟨?_, ?_, ?_⟩
  · intro ds fs hne hds hfs _
    have hb := takeWhile_digit_break ds fs hds
    constructor
    · intro hlen
      rcases fs with _ | ⟨a, _ | ⟨b, rest⟩⟩
      · simp [matchAmount, matchAfterDollar, hb.1, hb.2, hne]
      · simp [matchAmount, matchAfterDollar, hb.1, hb.2, hne]
      · simp at hlen; omega
    · intro hlen
      rcases fs with _ | ⟨a, _ | ⟨b, rest⟩⟩
      · simp at hlen
      · simp at hlen
      · have ha : a.isDigit = true := hfs a (by simp)
        have hbd : b.isDigit = true := hfs b (by simp)
        simp [matchAmount, matchAfterDollar, hb.1, hb.2, hne, ha, hbd]
  · rw [extract_amount_eq_cents _ 2500 (by decide)]; norm_num
  · rw [extract_amount_eq_cents _ 2599 (by decide)]; norm_num

/-- C10 witness: the general part of the theorem applied at the two concrete
capture shapes of the literal cases. -/
theorem c10_fractional_capture_witness :
    matchAmount ('S' :: '$' :: (['2', '5'] ++ '.' :: ['9'])) = some ['2', '5'] ∧
    matchAmount ('S' :: '$' :: (['2', '5'] ++ '.' :: ['9', '9', '9'])) =
      some (['2', '5'] ++ '.' :: (['9', '9', '9'] : List Char).take 2) :=
  ⟨(c10_fractional_capture.1 ['2', '5'] ['9'] (by decide) (by decide) (by decide)
      (by decide)).1 (by decide),
   (c10_fractional_capture.1 ['2', '5'] ['9', '9', '9'] (by decide) (by decide) (by decide)
      (by decide)).2 (by decide)⟩

/-! ## C1/C9: the fuzzy matcher computes the spec's argmax -/

theorem firstBestCat_cons_ne (p : String × ℕ) (l : List (String × ℕ)) (m : ℕ)
    (h : p.2 ≠ m) : firstBestCat (p :: l) m = firstBestCat l m := by
  have hb : (p.2 == m) = false := beq_eq_false_iff_ne.mpr h
  simp only [firstBestCat, List.find?_cons, hb]

theorem firstBestCat_cons_self (p : String × ℕ) (l : List (String × ℕ)) :
    firstBestCat (p :: l) p.2 = p.1 := by
  have hb : (p.2 == p.2) = true := beq_self_eq_true _
  simp only [firstBestCat, List.find?_cons, hb]

theorem foldl_stepBest_eq (l : List (String × ℕ)) (a : String × ℕ) :
    l.foldl stepBest a =
      if a.2 < maxScore l ∧ 75 < maxScore l then (firstBestCat l (maxScore l), maxScore l)
      else a := by
  induction l generalizing a with
  | nil =>
    have h0 : maxScore ([] : List (String × ℕ)) = 0 := rfl
    rw [List.foldl_nil, h0, if_neg (by omega)]
  | cons p l ih =>
    rw [List.foldl_cons]
    have hMc : maxScore (p :: l) = Nat.max p.2 (maxScore l) := rfl
    by_cases h : a.2 < p.2 ∧ 75 < p.2
    · have hstep : stepBest a p = p := by rw [stepBest, if_pos h]
      rw [hstep, ih p]
      by_cases h2 : p.2 < maxScore l ∧ 75 < maxScore l
      · have hMM : maxScore (p :: l) = maxScore l := by
          rw [hMc]; exact Nat.max_eq_right (le_of_lt h2.1)
        rw [if_pos h2, hMM, if_pos ⟨by omega, by omega⟩,
          firstBestCat_cons_ne p l _ (by omega)]
      · have hMp : maxScore l ≤ p.2 := by omega
        have hMM : maxScore (p :: l) = p.2 := by rw [hMc]; exact Nat.max_eq_left hMp
        rw [if_neg h2, hMM, if_pos ⟨h.1, h.2⟩, firstBestCat_cons_self]
    · have hstep : stepBest a p = a := by rw [stepBest, if_neg h]
      rw [hstep, ih a]
      by_cases h2 : a.2 < maxScore l ∧ 75 < maxScore l
      · have hMM : maxScore (p :: l) = maxScore l := by
          rw [hMc]; exact Nat.max_eq_right (by omega)
        rw [if_pos h2, hMM, if_pos ⟨h2.1, h2.2⟩, firstBestCat_cons_ne p l _ (by omega)]
      · have hMM : maxScore (p :: l) = p.2 ∨ maxScore (p :: l) = maxScore l := by
          rw [hMc]
          rcases Nat.le_total p.2 (maxScore l) with hle | hle
          · exact Or.inr (Nat.max_eq_right hle)
          · exact Or.inl (Nat.max_eq_left hle)
        rw [if_neg h2]
        rcases hMM with hMM | hMM <;> rw [hMM, if_neg (by omega)]

theorem catsFold_eq_entries (score : String → String → ℕ)
    (cats : List (String × List String)) (w : String) (acc : String × ℕ)
    (hw : w ≠ "") :
    cats.foldl (fuzzyInner score w) acc = (entriesFor score cats w).foldl stepBest acc := by
  induction cats generalizing acc with
  | nil => simp [entriesFor, hw]
  | cons ck cats ih =>
    rw [List.foldl_cons]
    by_cases hck : ck.2 = []
    · have hE : entriesFor score (ck :: cats) w = entriesFor score cats w := by
        simp only [entriesFor, if_neg hw, List.filterMap_cons, if_pos hck]
      rw [show fuzzyInner score w acc ck = acc from by rw [fuzzyInner, if_pos hck],
        ih acc, hE]
    · have hE : entriesFor score (ck :: cats) w =
          (ck.1, maxKwScore score w ck.2) :: entriesFor score cats w := by
        simp only [entriesFor, if_neg hw, List.filterMap_cons, if_neg hck]
      rw [show fuzzyInner score w acc ck = stepBest acc (ck.1, maxKwScore score w ck.2) from by
          rw [fuzzyInner, if_neg hck, stepBest],
        ih _, hE, List.foldl_cons]

theorem wordsFold_eq_entries (score : String → String → ℕ)
    (cats : List (String × List String)) (words : List String) (acc : String × ℕ) :
    words.foldl (fuzzyOuter score cats) acc =
      (pairEntries score cats words).foldl stepBest acc := by
  induction words generalizing acc with
  | nil => simp [pairEntries]
  | cons w ws ih =>
    rw [List.foldl_cons, pairEntries, List.flatMap_cons, List.foldl_append]
    by_cases hw : w = ""
    · rw [show fuzzyOuter score cats acc w = acc from by rw [fuzzyOuter, if_pos hw]]
      rw [show entriesFor score cats w = [] from by rw [entriesFor, if_pos hw]]
      rw [List.foldl_nil, ih acc, pairEntries]
    · rw [show fuzzyOuter score cats acc w = cats.foldl (fuzzyInner score w) acc from by
        rw [fuzzyOuter, if_neg hw]]
      rw [catsFold_eq_entries score cats w acc hw, ih _, pairEntries]

/-- C1: on every description and every category snapshot, the fuzzy-mode
Categorizer returns exactly what the spec describes: the category achieving
the single highest (token, keyword) score over all tokens of the normalized
description and all categories with non-empty keyword lists, adopting a
category only when its score strictly exceeds both the running best and the
fixed threshold 75, ties keeping the earlier-iterated category, and
("others", 0) when no pair scores strictly above 75. -/
theorem c1_fuzzy_matcher_matches_spec (score : String → String → ℕ)
    (cats : List (String × List String)) (name : Option String) :
    categorize_expense score cats name = categorize_spec score cats name := by
  cases name with
  | none => rfl
  | some n =>
    simp only [categorize_expense, categorize_spec]
    by_cases hc : norm_expense_name n = []
    · rw [if_pos hc, hc]
      have hsplit : splitTokens ([] : List Char) = [] := rfl
      rw [hsplit]
      have hpe : pairEntries score cats [] = [] := rfl
      rw [hpe]
      have h0 : maxScore ([] : List (String × ℕ)) = 0 := rfl
      rw [h0, if_neg (by omega)]
    · rw [if_neg hc, wordsFold_eq_entries, foldl_stepBest_eq]
      by_cases h75 : 75 < maxScore (pairEntries score cats (splitTokens (norm_expense_name n)))
      · rw [if_pos ⟨lt_of_le_of_lt (Nat.zero_le 75) h75, h75⟩, if_pos h75]
      · rw [if_neg (fun hcontra => h75 hcontra.2), if_neg h75]

theorem firstBestCat_maxScore_mem (l : List (String × ℕ)) (h : 0 < maxScore l) :
    firstBestCat l (maxScore l) ∈ l.map Prod.fst := by
  induction l with
  | nil => exact absurd h (by simp [maxScore])
  | cons p l ih =>
    by_cases hp : p.2 = maxScore (p :: l)
    · rw [← hp, firstBestCat_cons_self]
      simp
    · have hM : maxScore (p :: l) = maxScore l := by
        rcases Nat.le_total p.2 (maxScore l) with hle | hle
        · exact Nat.max_eq_right hle
        · exact absurd (Nat.max_eq_left hle).symm hp
      rw [firstBestCat_cons_ne p l _ hp, hM]
      rw [hM] at h
      exact List.mem_cons_of_mem _ (ih h)

theorem pairEntries_fst_mem (score : String → String → ℕ)
    (cats : List (String × List String)) (words : List String) (p : String × ℕ)
    (hp : p ∈ pairEntries score cats words) : p.1 ∈ cats.map Prod.fst := by
  rcases List.mem_flatMap.mp hp with ⟨w, _, hpe⟩
  by_cases hw0 : w = ""
  · rw [entriesFor, if_pos hw0] at hpe
    exact absurd hpe (by simp)
  · rw [entriesFor, if_neg hw0] at hpe
    rcases List.mem_filterMap.mp hpe with ⟨ck, hckmem, hck⟩
    by_cases hnil : ck.2 = []
    · rw [if_pos hnil] at hck
      exact absurd hck (by simp)
    · rw [if_neg hnil] at hck
      have hpe2 : p = (ck.1, maxKwScore score w ck.2) := (Option.some.inj hck).symm
      rw [hpe2]
      exact List.mem_map_of_mem _ hckmem

theorem scanKeywords_some (ename : List Char) (c : String) (kws : List String)
    (r : String × ℕ) (h : scanKeywords ename c kws = some r) : r = (c, 100) := by
  induction kws with
  | nil => exact absurd h (by simp [scanKeywords])
  | cons kw kws ih =>
    simp only [scanKeywords] at h
    split at h
    · exact (Option.some.inj h).symm
    · exact ih h

theorem fallbackScan_shape (ename : List Char) (cats : List (String × List String)) :
    fallbackScan ename cats = ("others", 0) ∨
      ((fallbackScan ename cats).1 ∈ cats.map Prod.fst ∧
        (fallbackScan ename cats).2 = 100) := by
  induction cats with
  | nil => exact Or.inl rfl
  | cons ck rest ih =>
    by_cases hck : ck.2 = []
    · rw [show fallbackScan ename (ck :: rest) = fallbackScan ename rest from by
        simp only [fallbackScan, if_pos hck]]
      rcases ih with h | ⟨h1, h2⟩
      · exact Or.inl h
      · exact Or.inr ⟨by rw [List.map_cons]; exact List.mem_cons_of_mem _ h1, h2⟩
    · cases hscan : scanKeywords ename ck.1 ck.2 with
      | none =>
        rw [show fallbackScan ename (ck :: rest) = fallbackScan ename rest from by
          simp only [fallbackScan, if_neg hck, hscan]]
        rcases ih with h | ⟨h1, h2⟩
        · exact Or.inl h
        · exact Or.inr ⟨by rw [List.map_cons]; exact List.mem_cons_of_mem _ h1, h2⟩
      | some r =>
        rw [show fallbackScan ename (ck :: rest) = r from by
          simp only [fallbackScan, if_neg hck, hscan]]
        have hr : r = (ck.1, 100) := scanKeywords_some ename ck.1 ck.2 r hscan
        rw [hr]
        exact Or.inr ⟨by rw [List.map_cons]; exact List.mem_cons_self _ _, rfl⟩

/-- C9: the Categorizer's result is always either exactly ("others", 0) or a
pair (c, s) with c a category name present in the snapshot and s strictly
above 75 (s = 100 in the degraded substring mode); scores in (0, 75] are
never returned, and a non-"others" category never comes with score 0. -/
theorem c9_categorizer_result_shape (score : String → String → ℕ)
    (cats : List (String × List String)) (name : Option String) :
    (categorize_expense score cats name = ("others", 0) ∨
      ((categorize_expense score cats name).1 ∈ cats.map Prod.fst ∧
        75 < (categorize_expense score cats name).2)) ∧
    (categorize_fallback cats name = ("others", 0) ∨
      ((categorize_fallback cats name).1 ∈ cats.map Prod.fst ∧
        (categorize_fallback cats name).2 = 100)) := by
  constructor
  · cases name with
    | none => exact Or.inl rfl
    | some n =>
      simp only [categorize_expense]
      by_cases hc : norm_expense_name n = []
      · rw [if_pos hc]
        exact Or.inl rfl
      · rw [if_neg hc, wordsFold_eq_entries, foldl_stepBest_eq]
        by_cases h75 :
            75 < maxScore (pairEntries score cats (splitTokens (norm_expense_name n)))
        · rw [if_pos ⟨lt_of_le_of_lt (Nat.zero_le 75) h75, h75⟩]
          refine Or.inr ⟨?_, h75⟩
          have hmem := firstBestCat_maxScore_mem
            (pairEntries score cats (splitTokens (norm_expense_name n)))
            (lt_of_le_of_lt (Nat.zero_le 75) h75)
          rcases List.mem_map.mp hmem with ⟨p, hp, hfst⟩
          rw [← hfst]
          exact pairEntries_fst_mem score cats _ p hp
        · rw [if_neg (fun hcontra => h75 hcontra.2)]
          exact Or.inl rfl
  · cases name with
    | none => exact Or.inl rfl
    | some n =>
      simp only [categorize_fallback]
      by_cases hc : norm_expense_name n = []
      · rw [if_pos hc]
        exact Or.inl rfl
      · rw [if_neg hc]
        exact fallbackScan_shape (norm_expense_name n) cats

/-! ## C3/C8: keyword uniqueness in the CategoryStore -/

theorem claimKeep_mem_kept (ts : List String) :
    ∀ (claimed : List String) (x : String),
      x ∈ (claimKeep claimed ts).1 ↔ x ∈ ts ∧ x ∉ claimed := by
  induction ts with
  | nil => intro claimed x; simp [claimKeep]
  | cons t ts ih =>
    intro claimed x
    by_cases h : t ∈ claimed
    · simp only [claimKeep, if_pos h]
      rw [ih claimed x]
      constructor
      · rintro ⟨hts, hnc⟩
        exact ⟨List.mem_cons_of_mem _ hts, hnc⟩
      · rintro ⟨hmem, hnc⟩
        rcases List.mem_cons.mp hmem with rfl | hts
        · exact absurd h hnc
        · exact ⟨hts, hnc⟩
    · simp only [claimKeep, if_neg h, List.mem_cons]
      rw [ih (t :: claimed) x]
      constructor
      · rintro (rfl | ⟨hts, hnc⟩)
        · exact ⟨Or.inl rfl, h⟩
        · exact ⟨Or.inr hts, fun hc => hnc (List.mem_cons_of_mem _ hc)⟩
      · rintro ⟨rfl | hts, hnc⟩
        · exact Or.inl rfl
        · by_cases hxt : x = t
          · exact Or.inl hxt
          · refine Or.inr ⟨hts, fun hc => ?_⟩
            rcases List.mem_cons.mp hc with h1 | h1
            · exact hxt h1
            · exact hnc h1

theorem claimKeep_mem_claimed (ts : List String) :
    ∀ (claimed : List String) (x : String),
      x ∈ (claimKeep claimed ts).2 ↔ x ∈ claimed ∨ x ∈ ts := by
  induction ts with
  | nil => intro claimed x; simp [claimKeep]
  | cons t ts ih =>
    intro claimed x
    by_cases h : t ∈ claimed
    · simp only [claimKeep, if_pos h]
      rw [ih claimed x, List.mem_cons]
      constructor
      · rintro (hc | hts)
        · exact Or.inl hc
        · exact Or.inr (Or.inr hts)
      · rintro (hc | rfl | hts)
        · exact Or.inl hc
        · exact Or.inl h
        · exact Or.inr hts
    · simp only [claimKeep, if_neg h]
      rw [ih (t :: claimed) x, List.mem_cons, List.mem_cons]
      tauto

theorem claimKeep_nodup (ts : List String) :
    ∀ claimed : List String, (claimKeep claimed ts).1.Nodup := by
  induction ts with
  | nil => intro claimed; simp [claimKeep]
  | cons t ts ih =>
    intro claimed
    by_cases h : t ∈ claimed
    · simp only [claimKeep, if_pos h]
      exact ih claimed
    · simp only [claimKeep, if_neg h]
      refine List.nodup_cons.mpr ⟨fun hmem => ?_, ih (t :: claimed)⟩
      exact ((claimKeep_mem_kept ts (t :: claimed) t).mp hmem).2 (List.mem_cons_self _ _)

theorem claimKeep_sublist (ts : List String) :
    ∀ claimed : List String, List.Sublist (claimKeep claimed ts).1 ts := by
  induction ts with
  | nil => intro claimed; simp [claimKeep]
  | cons t ts ih =>
    intro claimed
    by_cases h : t ∈ claimed
    · simp only [claimKeep, if_pos h]
      exact (ih claimed).cons t
    · simp only [claimKeep, if_neg h]
      exact (ih (t :: claimed)).cons₂ t

theorem procGo_names (edited : List (String × String)) :
    ∀ claimed, (processCategoriesGo edited claimed).map Prod.fst = edited.map Prod.fst := by
  induction edited with
  | nil => intro claimed; rfl
  | cons e rest ih =>
    intro claimed
    simp only [processCategoriesGo, List.map_cons]
    rw [ih]

theorem procGo_flat_nodup (edited : List (String × String)) :
    ∀ claimed,
      ((processCategoriesGo edited claimed).flatMap Prod.snd).Nodup ∧
      ∀ x ∈ (processCategoriesGo edited claimed).flatMap Prod.snd, x ∉ claimed := by
  induction edited with
  | nil => intro claimed; simp [processCategoriesGo]
  | cons e rest ih =>
    intro claimed
    simp only [processCategoriesGo, List.flatMap_cons]
    constructor
    · refine List.Nodup.append (claimKeep_nodup _ _) (ih _).1 ?_
      intro x hk hf
      have hx2 : x ∈ (claimKeep claimed (tokensOf e.2)).2 :=
        (claimKeep_mem_claimed _ _ _).mpr
          (Or.inr ((claimKeep_mem_kept _ _ _).mp hk).1)
      exact (ih _).2 x hf hx2
    · intro x hx hc
      rcases List.mem_append.mp hx with hk | hf
      · exact ((claimKeep_mem_kept _ _ _).mp hk).2 hc
      · exact (ih _).2 x hf ((claimKeep_mem_claimed _ _ _).mpr (Or.inl hc))

theorem procGo_pairwise (edited : List (String × String)) :
    ∀ claimed,
      List.Pairwise (fun a b => ∀ t, t ∈ a.2 → t ∉ b.2)
        (processCategoriesGo edited claimed) := by
  induction edited with
  | nil => intro claimed; simp [processCategoriesGo]
  | cons e rest ih =>
    intro claimed
    simp only [processCategoriesGo]
    refine List.Pairwise.cons ?_ (ih _)
    intro b hb t ht htb
    have ht2 : t ∈ (claimKeep claimed (tokensOf e.2)).2 :=
      (claimKeep_mem_claimed _ _ _).mpr (Or.inr ((claimKeep_mem_kept _ _ _).mp ht).1)
    have hflat : t ∈ (processCategoriesGo rest (claimKeep claimed (tokensOf e.2)).2).flatMap
        Prod.snd := List.mem_flatMap.mpr ⟨b, hb, htb⟩
    exact (procGo_flat_nodup rest _).2 t hflat ht2

theorem procGo_get_mem (edited : List (String × String)) :
    ∀ (claimed : List String) (i : ℕ)
      (hi : i < (processCategoriesGo edited claimed).length) (hi' : i < edited.length)
      (t : String),
      t ∈ ((processCategoriesGo edited claimed).get ⟨i, hi⟩).2 ↔
        (t ∈ tokensOf (edited.get ⟨i, hi'⟩).2 ∧ t ∉ claimed ∧
          ∀ (j : ℕ) (hj : j < (processCategoriesGo edited claimed).length), j < i →
            t ∉ ((processCategoriesGo edited claimed).get ⟨j, hj⟩).2) := by
  induction edited with
  | nil =>
    intro claimed i hi hi' t
    exact absurd hi' (by simp)
  | cons e rest ih =>
    intro claimed i hi hi' t
    cases i with
    | zero =>
      have hL : t ∈ ((processCategoriesGo (e :: rest) claimed).get ⟨0, hi⟩).2 ↔
          t ∈ (claimKeep claimed (tokensOf e.2)).1 := Iff.rfl
      rw [hL, claimKeep_mem_kept]
      constructor
      · rintro ⟨h1, h2⟩
        exact ⟨h1, h2, fun j hj hji => absurd hji (Nat.not_lt_zero j)⟩
      · rintro ⟨h1, h2, _⟩
        exact ⟨h1, h2⟩
    | succ i =>
      have hi2 : i < (processCategoriesGo rest (claimKeep claimed (tokensOf e.2)).2).length :=
        Nat.lt_of_succ_lt_succ hi
      have hi2' : i < rest.length := Nat.lt_of_succ_lt_succ hi'
      have hL : t ∈ ((processCategoriesGo (e :: rest) claimed).get ⟨i + 1, hi⟩).2 ↔
          t ∈ ((processCategoriesGo rest (claimKeep claimed (tokensOf e.2)).2).get
            ⟨i, hi2⟩).2 := Iff.rfl
      rw [hL, ih _ i hi2 hi2' t]
      constructor
      · rintro ⟨hA, hB, hC⟩
        have hnotc : t ∉ claimed := fun hc =>
          hB ((claimKeep_mem_claimed _ _ _).mpr (Or.inl hc))
        refine ⟨hA, hnotc, ?_⟩
        intro j hj hji
        cases j with
        | zero =>
          intro hk
          exact hB ((claimKeep_mem_claimed _ _ _).mpr
            (Or.inr ((claimKeep_mem_kept _ _ _).mp hk).1))
        | succ j =>
          exact hC j (Nat.lt_of_succ_lt_succ hj) (Nat.lt_of_succ_lt_succ hji)
      · rintro ⟨hA, hB, hD⟩
        have h0 : t ∉ (claimKeep claimed (tokensOf e.2)).1 :=
          hD 0 (Nat.succ_pos _) (Nat.succ_pos i)
        have hB' : t ∉ (claimKeep claimed (tokensOf e.2)).2 := by
          intro hc
          rcases (claimKeep_mem_claimed _ _ _).mp hc with hc1 | hts
          · exact hB hc1
          · exact h0 ((claimKeep_mem_kept _ _ _).mpr ⟨hts, hB⟩)
        refine ⟨hA, hB', ?_⟩
        intro j hj hji
        exact hD (j + 1) (Nat.succ_lt_succ hj) (Nat.succ_lt_succ hji)

theorem procGo_sublist (edited : List (String × String)) :
    ∀ (claimed : List String) (i : ℕ)
      (hi : i < (processCategoriesGo edited claimed).length) (hi' : i < edited.length),
      List.Sublist ((processCategoriesGo edited claimed).get ⟨i, hi⟩).2
        (tokensOf (edited.get ⟨i, hi'⟩).2) := by
  induction edited with
  | nil =>
    intro claimed i hi hi'
    exact absurd hi' (by simp)
  | cons e rest ih =>
    intro claimed i hi hi'
    cases i with
    | zero => exact claimKeep_sublist (tokensOf e.2) claimed
    | succ i => exact ih _ i (Nat.lt_of_succ_lt_succ hi) (Nat.lt_of_succ_lt_succ hi')

theorem mem_foldl_insertOrReplace (procList : List (String × List String)) :
    ∀ (db : List (String × String)) (pair : String × String), pair ∈ db →
      (∀ ck ∈ procList, pyLower ck.1 ≠ pair.1) →
      pair ∈ procList.foldl
        (fun d ck => insertOrReplace d (pyLower ck.1) (joinComma ck.2)) db := by
  induction procList with
  | nil => intro db pair hmem _; exact hmem
  | cons c0 rest ih =>
    intro db pair hmem hne
    rw [List.foldl_cons]
    refine ih _ pair ?_ (fun ck hck => hne ck (List.mem_cons_of_mem _ hck))
    refine List.mem_append.mpr (Or.inl ?_)
    refine List.mem_filter.mpr ⟨hmem, ?_⟩
    have : pair.1 ≠ pyLower c0.1 := fun h => hne c0 (List.mem_cons_self _ _) h.symm
    exact bne_iff_ne.mpr this

theorem foldl_insert_mem (procList : List (String × List String)) :
    ∀ db : List (String × String), (procList.map (fun ck => pyLower ck.1)).Nodup →
      ∀ ck ∈ procList, (pyLower ck.1, joinComma ck.2) ∈ procList.foldl
        (fun d ck => insertOrReplace d (pyLower ck.1) (joinComma ck.2)) db := by
  induction procList with
  | nil => intro db _ ck h; exact absurd h (List.not_mem_nil _)
  | cons c0 rest ih =>
    intro db hnodup ck hck
    rw [List.foldl_cons]
    rcases List.mem_cons.mp hck with rfl | hmem
    · refine mem_foldl_insertOrReplace rest _ _ ?_ ?_
      · exact List.mem_append.mpr (Or.inr (List.mem_singleton.mpr rfl))
      · intro ck' hck' heq
        have heq2 : pyLower ck'.1 = pyLower ck.1 := heq
        apply (List.nodup_cons.mp hnodup).1
        show pyLower ck.1 ∈ List.map (fun ck => pyLower ck.1) rest
        rw [← heq2]
        exact List.mem_map_of_mem (fun ck => pyLower ck.1) hck'
    · exact ih _ (List.nodup_cons.mp hnodup).2 ck hmem

/-- C3 counterexample: the single-category upsert persists keywords verbatim,
so two successive upserts reach a state in which the keyword "coffee" belongs
to both category "a" and category "b" — the invariant does not hold at every
reachable state. -/
theorem c3_keyword_uniqueness_counterexample :
    ¬ keywordsUnique
      (applyOps [StoreOp.upsert "a" ["coffee"], StoreOp.upsert "b" ["coffee"]] []) := by
  decide

/-- C3 amended: global keyword uniqueness is not an invariant of every
reachable CategoryStore state (single-category upsert and import persist
keywords verbatim and can duplicate a token across categories, which the
separate duplicate-detection query merely reports); what the store does
guarantee is batch-local uniqueness: the post-deduplication keyword lists
persisted by any one bulk update contain no duplicate token across the whole
batch. -/
theorem c3_keyword_uniqueness_amended (edited : List (String × String)) :
    ((processCategories edited).flatMap Prod.snd).Nodup :=
  (procGo_flat_nodup edited []).1

/-- C8: a bulk category edit tokenizes each category's comma-separated text
into trimmed lowercased non-empty tokens; a token already claimed by an
earlier-processed category is silently dropped (first-claim-wins), each
persisted list is a sublist of its token list, no token appears in two
categories' post-deduplication lists, and exactly those lists are persisted
(insert-or-replace under the lowercased category name). -/
theorem c8_bulk_update_first_claim_wins (edited : List (String × String))
    (hnames : (edited.map (fun e => pyLower e.1)).Nodup) :
    (processCategories edited).map Prod.fst = edited.map Prod.fst ∧
    (∀ (i : ℕ) (hi : i < (processCategories edited).length) (hi' : i < edited.length)
        (t : String),
      t ∈ ((processCategories edited).get ⟨i, hi⟩).2 ↔
        (t ∈ tokensOf (edited.get ⟨i, hi'⟩).2 ∧
          ∀ (j : ℕ) (hj : j < (processCategories edited).length), j < i →
            t ∉ ((processCategories edited).get ⟨j, hj⟩).2)) ∧
    (∀ (i : ℕ) (hi : i < (processCategories edited).length) (hi' : i < edited.length),
      List.Sublist ((processCategories edited).get ⟨i, hi⟩).2
        (tokensOf (edited.get ⟨i, hi'⟩).2)) ∧
    List.Pairwise (fun a b => ∀ t, t ∈ a.2 → t ∉ b.2) (processCategories edited) ∧
    (∀ (db : List (String × String)), ∀ ck ∈ processCategories edited,
      (pyLower ck.1, joinComma ck.2) ∈ update_categories_with_unique_keywords db edited) := by
  refine ⟨procGo_names edited [], ?_, ?_, procGo_pairwise edited [], ?_⟩
  · intro i hi hi' t
    constructor
    · intro ht
      have h := (procGo_get_mem edited [] i hi hi' t).mp ht
      exact ⟨h.1, h.2.2⟩
    · rintro ⟨h1, h3⟩
      exact (procGo_get_mem edited [] i hi hi' t).mpr ⟨h1, List.not_mem_nil t, h3⟩
  · intro i hi hi'
    exact procGo_sublist edited [] i hi hi'
  · intro db ck hck
    have hmapeq : (processCategories edited).map (fun ck => pyLower ck.1) =
        edited.map (fun e => pyLower e.1) := by
      have h1 : (processCategories edited).map Prod.fst = edited.map Prod.fst :=
        procGo_names edited []
      calc (processCategories edited).map (fun ck => pyLower ck.1)
          = ((processCategories edited).map Prod.fst).map pyLower := by
            rw [List.map_map]; rfl
        _ = (edited.map Prod.fst).map pyLower := by rw [h1]
        _ = edited.map (fun e => pyLower e.1) := by rw [List.map_map]; rfl
    exact foldl_insert_mem (processCategories edited) db (hmapeq ▸ hnames) ck hck

/-- C8 witness: the theorem at a concrete two-category batch in which the
token "cafe" is claimed by the earlier category and dropped from the later
one. -/
theorem c8_bulk_update_first_claim_wins_witness :
    ((([("food", "restaurant, cafe"), ("transport", "cafe,taxi")] :
        List (String × String)).map (fun e => pyLower e.1)).Nodup) ∧
    List.Pairwise (fun a b => ∀ t, t ∈ a.2 → t ∉ b.2)
      (processCategories [("food", "restaurant, cafe"), ("transport", "cafe,taxi")]) :=
  ⟨by decide,
   (c8_bulk_update_first_claim_wins
     [("food", "restaurant, cafe"), ("transport", "cafe,taxi")] (by decide)).2.2.2.1⟩

/-! ## C5: all-or-nothing bulk import on date validity -/

theorem collectDates_none (pp : String → Option (ℕ × ℕ × ℕ)) (rows : List Row)
    (hex : ∃ r ∈ rows, parse_date pp r.date = none) :
    collectDates pp rows = none := by
  induction rows with
  | nil =>
    rcases hex with ⟨r, hr, _⟩
    exact absurd hr (List.not_mem_nil r)
  | cons r rs ih =>
    rcases hex with ⟨r', hr', hnone⟩
    rcases List.mem_cons.mp hr' with rfl | hmem
    · simp only [collectDates, hnone]
    · simp only [collectDates]
      rcases hpd : parse_date pp r.date with _ | d
      · rfl
      · rw [ih ⟨r', hmem, hnone⟩]

theorem collectDates_some (pp : String → Option (ℕ × ℕ × ℕ)) (rows : List Row)
    (ds : List String) (h : collectDates pp rows = some ds) :
    (∀ r ∈ rows, (parse_date pp r.date).isSome) ∧ ds.length = rows.length := by
  induction rows generalizing ds with
  | nil =>
    simp only [collectDates, Option.some.injEq] at h
    subst h
    exact ⟨fun r hr => absurd hr (List.not_mem_nil r), rfl⟩
  | cons r rs ih =>
    simp only [collectDates] at h
    rcases hpd : parse_date pp r.date with _ | d
    · rw [hpd] at h
      exact absurd h (by simp)
    · rw [hpd] at h
      rcases hcd : collectDates pp rs with _ | ds'
      · rw [hcd] at h
        exact absurd h (by simp)
      · rw [hcd] at h
        have hds : ds = d :: ds' := (Option.some.inj h).symm
        obtain ⟨ih1, ih2⟩ := ih ds' hcd
        constructor
        · intro r' hr'
          rcases List.mem_cons.mp hr' with rfl | hmem
          · rw [hpd]; rfl
          · exact ih1 r' hmem
        · rw [hds, List.length_cons, ih2, List.length_cons]

/-- C5: the bulk import is all-or-nothing on date validity: if any row's date
fails to parse (all explicit formats and the permissive fallback), the whole
batch is rejected and nothing is persisted; rows are persisted (appended to
the table) only when every row's date parses. -/
theorem c5_bulk_import_all_or_nothing (pp : String → Option (ℕ × ℕ × ℕ))
    (db : List ExpenseRow) (rows : List Row) :
    ((∃ r ∈ rows, parse_date pp r.date = none) → save_expenses pp db rows = none) ∧
    (∀ db2, save_expenses pp db rows = some db2 →
      (∀ r ∈ rows, (parse_date pp r.date).isSome) ∧
      db2.length = db.length + rows.length) := by
  constructor
  · intro hex
    cases rows with
    | nil => rfl
    | cons r0 rs =>
      simp only [save_expenses]
      rw [collectDates_none pp _ hex]
  · intro db2 hsave
    cases rows with
    | nil => exact absurd hsave (by simp [save_expenses])
    | cons r0 rs =>
      simp only [save_expenses] at hsave
      rcases hcd : collectDates pp (r0 :: rs) with _ | ds
      · rw [hcd] at hsave
        exact absurd hsave (by simp)
      · rw [hcd] at hsave
        obtain ⟨h1, h2⟩ := collectDates_some pp _ ds hcd
        refine ⟨h1, ?_⟩
        have hdb2 : db2 = db ++ ((r0 :: rs).zip ds).map
            (fun p => rowToExpense r0.billMonth p.1 p.2) := (Option.some.inj hsave).symm
        rw [hdb2, List.length_append, List.length_map, List.length_zip, h2]
        simp

/-- C5 witness: a one-row batch whose date fails every parser is rejected. -/
theorem c5_bulk_import_all_or_nothing_witness :
    (∃ r ∈ ([⟨"not-a-date", "x", 1, "others", 50, 1, 0, "t", "m"⟩] : List Row),
        parse_date (fun _ => none) r.date = none) ∧
    save_expenses (fun _ => none) []
      [⟨"not-a-date", "x", 1, "others", 50, 1, 0, "t", "m"⟩] = none :=
  ⟨⟨⟨"not-a-date", "x", 1, "others", 50, 1, 0, "t", "m"⟩, List.mem_cons_self _ _,
      by decide⟩,
   (c5_bulk_import_all_or_nothing (fun _ => none) []
      [⟨"not-a-date", "x", 1, "others", 50, 1, 0, "t", "m"⟩]).1
     ⟨⟨"not-a-date", "x", 1, "others", 50, 1, 0, "t", "m"⟩, List.mem_cons_self _ _,
      by decide⟩⟩

/-! ## C6/C7: the bulk recategorizer -/

theorem countP_congr_mem {α : Type} (l : List α) (p q : α → Bool)
    (h : ∀ a ∈ l, p a = q a) : l.countP p = l.countP q := by
  induction l with
  | nil => rfl
  | cons a l ih =>
    rw [List.countP_cons, List.countP_cons, h a (List.mem_cons_self _ _),
      ih (fun a ha => h a (List.mem_cons_of_mem _ ha))]

theorem filterMap_congr_mem {α β : Type} (l : List α) (f g : α → Option β)
    (h : ∀ a ∈ l, f a = g a) : l.filterMap f = l.filterMap g := by
  induction l with
  | nil => rfl
  | cons a l ih =>
    rw [List.filterMap_cons, List.filterMap_cons, h a (List.mem_cons_self _ _),
      ih (fun a ha => h a (List.mem_cons_of_mem _ ha))]

theorem countP_id_map_update (T : List Expense) (i : ℕ) (c : String) (j : ℕ) :
    (T.map (fun e => if e.id = i then { e with category := c } else e)).countP
      (fun e => e.id == j) = T.countP (fun e => e.id == j) := by
  induction T with
  | nil => rfl
  | cons e T ih =>
    rw [List.map_cons, List.countP_cons, List.countP_cons, ih]
    congr 1
    by_cases h : e.id = i <;> simp [h]

theorem recatGood_update_inv (score : String → String → ℕ)
    (cats : List (String × List String)) (T : List Expense) (i : ℕ) (c : String)
    (entry : ℕ × String × String) :
    recatGood score cats
      (T.map (fun e => if e.id = i then { e with category := c } else e)) entry =
      recatGood score cats T entry := by
  simp only [recatGood, countP_id_map_update]

theorem recat_foldl_char (score : String → String → ℕ)
    (cats : List (String × List String)) (S : List (ℕ × String × String)) :
    ∀ (T : List Expense) (n : ℕ) (log : List (ℕ × String × String)),
      S.foldl (recatStep score cats) (T, n, log) =
        (S.foldl (recatUpd score cats) T,
         n + S.countP (recatGood score cats T),
         log ++ S.filterMap (fun entry =>
           if recatGood score cats T entry then
             some (entry.1, entry.2.1, recatNew score cats entry) else none)) := by
  induction S with
  | nil => intro T n log; simp
  | cons entry S ih =>
    intro T n log
    by_cases h1 : entry.2.1 = ""
    · have hstep : recatStep score cats (T, n, log) entry = (T, n, log) := by
        rw [recatStep, if_pos h1]
      have hupd : recatUpd score cats T entry = T := by rw [recatUpd, if_pos h1]
      have hgood : recatGood score cats T entry = false := by
        simp [recatGood, h1]
      rw [List.foldl_cons, hstep, ih T n log, List.foldl_cons, hupd,
        List.countP_cons, List.filterMap_cons, hgood]
      simp
    · by_cases h2 : recatNew score cats entry = entry.2.2
      · have h2' : (categorize_expense score cats (some entry.2.1)).1 = entry.2.2 := h2
        have hstep : recatStep score cats (T, n, log) entry = (T, n, log) := by
          rw [recatStep, if_neg h1, if_pos h2']
        have hupd : recatUpd score cats T entry = T := by
          rw [recatUpd, if_neg h1, if_pos h2]
        have hgood : recatGood score cats T entry = false := by
          simp only [recatGood, h2]
          simp
        rw [List.foldl_cons, hstep, ih T n log, List.foldl_cons, hupd,
          List.countP_cons, List.filterMap_cons, hgood]
        simp
      · have h2' : ¬ (categorize_expense score cats (some entry.2.1)).1 = entry.2.2 := h2
        have hupd : recatUpd score cats T entry = T.map (fun e =>
            if e.id = entry.1 then { e with category := recatNew score cats entry }
            else e) := by
          rw [recatUpd, if_neg h1, if_neg h2]
        by_cases h3 : 0 < T.countP (fun e => e.id == entry.1)
        · have hstep : recatStep score cats (T, n, log) entry =
              (recatUpd score cats T entry, n + 1,
               log ++ [(entry.1, entry.2.1, recatNew score cats entry)]) := by
            rw [recatStep, if_neg h1, if_neg h2']
            simp only [hupd, recatNew]
            rw [if_pos h3]
          have hgood : recatGood score cats T entry = true := by
            simp [recatGood, h1, h2, h3]
          rw [List.foldl_cons, hstep, ih _ _ _, List.foldl_cons,
            List.countP_cons, List.filterMap_cons, hgood]
          rw [countP_congr_mem S (recatGood score cats (recatUpd score cats T entry))
              (recatGood score cats T)
              (fun a _ => by rw [hupd]; exact recatGood_update_inv score cats T entry.1 _ a),
            filterMap_congr_mem S _ _
              (fun a _ => by rw [hupd, recatGood_update_inv score cats T entry.1 _ a])]
          simp only [if_true, Prod.mk.injEq, List.append_assoc, List.singleton_append,
            true_and, and_true]
          omega
        · have hstep : recatStep score cats (T, n, log) entry =
              (recatUpd score cats T entry, n, log) := by
            rw [recatStep, if_neg h1, if_neg h2']
            simp only [hupd, recatNew]
            rw [if_neg h3]
          have hgood : recatGood score cats T entry = false := by
            simp [recatGood, h1, h2, h3]
          rw [List.foldl_cons, hstep, ih _ _ _, List.foldl_cons,
            List.countP_cons, List.filterMap_cons, hgood]
          rw [countP_congr_mem S (recatGood score cats (recatUpd score cats T entry))
              (recatGood score cats T)
              (fun a _ => by rw [hupd]; exact recatGood_update_inv score cats T entry.1 _ a),
            filterMap_congr_mem S _ _
              (fun a _ => by rw [hupd, recatGood_update_inv score cats T entry.1 _ a])]
          simp

theorem list_map_id_fun {α : Type} (l : List α) : l.map (fun a => a) = l := by
  induction l with
  | nil => rfl
  | cons a l ih => rw [List.map_cons, ih]

theorem foldl_recatUpd_as_map (score : String → String → ℕ)
    (cats : List (String × List String)) (S : List (ℕ × String × String)) :
    ∀ T : List Expense,
      S.foldl (recatUpd score cats) T = T.map (applyEntries score cats S) := by
  induction S with
  | nil =>
    intro T
    rw [List.foldl_nil]
    exact (list_map_id_fun T).symm
  | cons entry S ih =>
    intro T
    rw [List.foldl_cons]
    have hupd_map : recatUpd score cats T entry = T.map (recatPer score cats entry) := by
      by_cases h1 : entry.2.1 = ""
      · rw [recatUpd, if_pos h1]
        have hper : recatPer score cats entry = fun x => x :=
          funext fun x => by rw [recatPer, if_pos h1]
        rw [hper, list_map_id_fun]
      · by_cases h2 : recatNew score cats entry = entry.2.2
        · rw [recatUpd, if_neg h1, if_pos h2]
          have hper : recatPer score cats entry = fun x => x :=
            funext fun x => by rw [recatPer, if_neg h1, if_pos h2]
          rw [hper, list_map_id_fun]
        · rw [recatUpd, if_neg h1, if_neg h2]
          have hper : recatPer score cats entry = fun x =>
              if x.id = entry.1 then { x with category := recatNew score cats entry }
              else x :=
            funext fun x => by rw [recatPer, if_neg h1, if_neg h2]
          rw [hper]
    rw [hupd_map, ih (T.map (recatPer score cats entry)), List.map_map]
    rfl

theorem applyEntries_not_mem (score : String → String → ℕ)
    (cats : List (String × List String)) (S : List (ℕ × String × String)) :
    ∀ x : Expense, (∀ entry ∈ S, entry.1 ≠ x.id) →
      applyEntries score cats S x = x := by
  induction S with
  | nil => intro x _; rfl
  | cons entry S ih =>
    intro x h
    have hper : recatPer score cats entry x = x := by
      rw [recatPer]
      by_cases h1 : entry.2.1 = ""
      · rw [if_pos h1]
      · rw [if_neg h1]
        by_cases h2 : recatNew score cats entry = entry.2.2
        · rw [if_pos h2]
        · rw [if_neg h2, if_neg]
          intro heq
          exact h entry (List.mem_cons_self _ _) heq.symm
    show applyEntries score cats S (recatPer score cats entry x) = x
    rw [hper]
    exact ih x (fun e he => h e (List.mem_cons_of_mem _ he))

theorem recatPer_self (score : String → String → ℕ)
    (cats : List (String × List String)) (e : Expense) :
    recatPer score cats (e.id, e.description, e.category) e =
      applyRecat score cats e := by
  by_cases h1 : e.description = ""
  · simp [recatPer, applyRecat, changedB, h1]
  · by_cases h2 : (categorize_expense score cats (some e.description)).1 = e.category
    · simp [recatPer, applyRecat, changedB, recatNew, newCatOf, h1, h2]
    · simp [recatPer, applyRecat, changedB, recatNew, newCatOf, h1, h2]

theorem applyRecat_id (score : String → String → ℕ)
    (cats : List (String × List String)) (e : Expense) :
    (applyRecat score cats e).id = e.id := by
  rw [applyRecat]
  split <;> rfl

theorem filterMap_if_eq_filter_map {α β : Type} (l : List α) (p : α → Bool)
    (g : α → β) :
    l.filterMap (fun a => if p a then some (g a) else none) = (l.filter p).map g := by
  induction l with
  | nil => rfl
  | cons a l ih =>
    rw [List.filterMap_cons, List.filter_cons]
    by_cases h : p a
    · rw [if_pos h, if_pos h, List.map_cons, ih]
    · rw [if_neg h, if_neg h, ih]

theorem applyEntries_proj_eq (score : String → String → ℕ)
    (cats : List (String × List String)) (db : List Expense)
    (hids : (db.map Expense.id).Nodup) :
    ∀ e ∈ db,
      applyEntries score cats (db.map (fun e => (e.id, e.description, e.category))) e =
        applyRecat score cats e := by
  intro e he
  obtain ⟨l1, l2, rfl⟩ := List.append_of_mem he
  rw [List.map_append, List.map_cons] at hids ⊢
  obtain ⟨hn1, hn2, hdisj⟩ := List.nodup_append.mp hids
  have hid_l2 : e.id ∉ l2.map Expense.id := (List.nodup_cons.mp hn2).1
  have hid_l1 : e.id ∉ l1.map Expense.id := fun hmem =>
    hdisj hmem (List.mem_cons_self _ _)
  have h1 : ∀ entry ∈ l1.map (fun e => (e.id, e.description, e.category)),
      entry.1 ≠ e.id := by
    intro entry hentry heq
    rcases List.mem_map.mp hentry with ⟨y, hy, rfl⟩
    exact hid_l1 (heq ▸ List.mem_map_of_mem Expense.id hy)
  have h2 : ∀ entry ∈ l2.map (fun e => (e.id, e.description, e.category)),
      entry.1 ≠ (applyRecat score cats e).id := by
    intro entry hentry heq
    rcases List.mem_map.mp hentry with ⟨y, hy, rfl⟩
    rw [applyRecat_id] at heq
    exact hid_l2 (heq ▸ List.mem_map_of_mem Expense.id hy)
  have happ : applyEntries score cats
      (l1.map (fun e => (e.id, e.description, e.category)) ++
        (e.id, e.description, e.category) ::
          l2.map (fun e => (e.id, e.description, e.category))) e =
      applyEntries score cats
        ((e.id, e.description, e.category) ::
          l2.map (fun e => (e.id, e.description, e.category)))
        (applyEntries score cats
          (l1.map (fun e => (e.id, e.description, e.category))) e) :=
    List.foldl_append _ _ _ _
  rw [happ, applyEntries_not_mem score cats _ e h1]
  show applyEntries score cats _ (recatPer score cats (e.id, e.description, e.category) e) = _
  rw [recatPer_self, applyEntries_not_mem score cats _ _ h2]

theorem update_existing_char (score : String → String → ℕ)
    (cats : List (String × List String)) (db : List Expense)
    (hids : (db.map Expense.id).Nodup) :
    update_existing_expenses_categories score cats db =
      (db.map (applyRecat score cats), db.length,
       (db.filter (changedB score cats)).length,
       (db.filter (changedB score cats)).map
         (fun e => (e.id, e.description, newCatOf score cats e))) := by
  simp only [update_existing_expenses_categories]
  rw [recat_foldl_char]
  have hgood_proj : ∀ e ∈ db,
      recatGood score cats db (e.id, e.description, e.category) = changedB score cats e := by
    intro e he
    have hpos : 0 < db.countP (fun x => x.id == e.id) :=
      List.countP_pos.mpr ⟨e, he, beq_self_eq_true _⟩
    simp only [recatGood, changedB, recatNew, newCatOf, decide_eq_true hpos, Bool.and_true]
  have hcnt : (db.map (fun e => (e.id, e.description, e.category))).countP
      (recatGood score cats db) = (db.filter (changedB score cats)).length := by
    rw [List.countP_map]
    rw [countP_congr_mem db
      (recatGood score cats db ∘ fun e => (e.id, e.description, e.category))
      (changedB score cats) (fun e he => hgood_proj e he)]
    exact List.countP_eq_length_filter _ _
  have hlog : (db.map (fun e => (e.id, e.description, e.category))).filterMap
      (fun entry => if recatGood score cats db entry then
        some (entry.1, entry.2.1, recatNew score cats entry) else none) =
      (db.filter (changedB score cats)).map
        (fun e => (e.id, e.description, newCatOf score cats e)) := by
    rw [List.filterMap_map]
    rw [filterMap_congr_mem db
      ((fun entry => if recatGood score cats db entry then
        some (entry.1, entry.2.1, recatNew score cats entry) else none) ∘
          fun e => (e.id, e.description, e.category))
      (fun e => if changedB score cats e then
        some (e.id, e.description, newCatOf score cats e) else none)
      (fun e he => by
        show (if recatGood score cats db (e.id, e.description, e.category) then
          some (e.id, e.description, recatNew score cats (e.id, e.description, e.category))
          else none) = _
        rw [hgood_proj e he]
        rfl)]
    exact filterMap_if_eq_filter_map db _ _
  have hmapped : (db.map (fun e => (e.id, e.description, e.category))).foldl
      (recatUpd score cats) db = db.map (applyRecat score cats) := by
    rw [foldl_recatUpd_as_map]
    exact List.map_congr_left (applyEntries_proj_eq score cats db hids)
  rw [hmapped, hcnt, hlog]
  simp

/-- C6 counterexample: at a concrete store and snapshot, the change log the
operation returns is [(1, "grab ride", "transport")] — the triple carries the
id, the description and the new category but no component equal to the old
category "others", so the claimed (id, description, oldCategory→newCategory)
entry containing both categories is not what the code produces. -/
theorem c6_changelog_counterexample :
    (update_existing_expenses_categories eqScore [("transport", ["grab"])]
        [⟨1, "grab ride", 25, "others"⟩]).2.2.2 =
      [(1, "grab ride", "transport")] ∧
    ∀ p ∈ (update_existing_expenses_categories eqScore [("transport", ["grab"])]
        [⟨1, "grab ride", 25, "others"⟩]).2.2.2,
      p.2.1 ≠ "others" ∧ p.2.2 ≠ "others" := by
  decide

/-- C6 amended: one bulk recategorization run rewrites the stored category of
exactly the records with a non-empty description whose recomputed category
differs from the stored one (the confidence score is not persisted: records
hold no score field), returns totalProcessed = number of records and
totalUpdated = number of rewritten records, and appends one change-log entry
per rewritten record of the form (id, description, newCategory) — the old
category is not part of the change log. -/
theorem c6_bulk_recategorizer_amended (score : String → String → ℕ)
    (cats : List (String × List String)) (db : List Expense)
    (hids : (db.map Expense.id).Nodup) :
    update_existing_expenses_categories score cats db =
      (db.map (applyRecat score cats), db.length,
       (db.filter (changedB score cats)).length,
       (db.filter (changedB score cats)).map
         (fun e => (e.id, e.description, newCatOf score cats e))) :=
  update_existing_char score cats db hids

/-- C6 amended witness: the amended theorem at the counterexample's store. -/
theorem c6_bulk_recategorizer_amended_witness :
    (([⟨1, "grab ride", 25, "others"⟩] : List Expense).map Expense.id).Nodup ∧
    update_existing_expenses_categories eqScore [("transport", ["grab"])]
        [⟨1, "grab ride", 25, "others"⟩] =
      (([⟨1, "grab ride", 25, "others"⟩] : List Expense).map
        (applyRecat eqScore [("transport", ["grab"])]),
       ([⟨1, "grab ride", 25, "others"⟩] : List Expense).length,
       (([⟨1, "grab ride", 25, "others"⟩] : List Expense).filter
         (changedB eqScore [("transport", ["grab"])])).length,
       (([⟨1, "grab ride", 25, "others"⟩] : List Expense).filter
         (changedB eqScore [("transport", ["grab"])])).map
         (fun e => (e.id, e.description, newCatOf eqScore [("transport", ["grab"])] e))) :=
  ⟨by decide,
   c6_bulk_recategorizer_amended eqScore [("transport", ["grab"])]
     [⟨1, "grab ride", 25, "others"⟩] (by decide)⟩

/-- C7: bulk recategorization is idempotent: with no intervening category
edits (same snapshot, same scorer), a second run performs zero updates. -/
theorem c7_bulk_recategorizer_idempotent (score : String → String → ℕ)
    (cats : List (String × List String)) (db : List Expense)
    (hids : (db.map Expense.id).Nodup) :
    (update_existing_expenses_categories score cats
      (update_existing_expenses_categories score cats db).1).2.2.1 = 0 := by
  have h1 := update_existing_char score cats db hids
  have hdb' : (update_existing_expenses_categories score cats db).1 =
      db.map (applyRecat score cats) := by rw [h1]
  have hids' : ((db.map (applyRecat score cats)).map Expense.id).Nodup := by
    rw [List.map_map]
    have hcomp : (Expense.id ∘ applyRecat score cats) = Expense.id :=
      funext fun e => applyRecat_id score cats e
    rw [hcomp]
    exact hids
  rw [hdb', update_existing_char score cats (db.map (applyRecat score cats)) hids']
  show ((db.map (applyRecat score cats)).filter (changedB score cats)).length = 0
  rw [List.length_eq_zero, List.filter_eq_nil]
  intro e' he'
  rcases List.mem_map.mp he' with ⟨e, _, rfl⟩
  by_cases hch : changedB score cats e
  · rw [applyRecat, if_pos hch]
    simp [changedB, newCatOf]
  · rw [applyRecat, if_neg hch]
    exact fun h => hch h

/-- C7 witness: a concrete store on which a first run rewrites one record and
a second run updates nothing. -/
theorem c7_bulk_recategorizer_idempotent_witness :
    (([⟨1, "grab ride", 25, "others"⟩] : List Expense).map Expense.id).Nodup ∧
    (update_existing_expenses_categories eqScore [("transport", ["grab"])]
      (update_existing_expenses_categories eqScore [("transport", ["grab"])]
        [⟨1, "grab ride", 25, "others"⟩]).1).2.2.1 = 0 :=
  ⟨by decide,
   c7_bulk_recategorizer_idempotent eqScore [("transport", ["grab"])]
     [⟨1, "grab ride", 25, "others"⟩] (by decide)⟩
